import Mathlib

/-!
Sparklog — weekly hours aggregation and overtime tiering: a verification development

This file gives a shallow embedding, in Lean 4, of the core computational
logic of the Sparklog repository: the weekly hours aggregation and
overtime-tiering engine, together with its time helpers and formatters.

The embedding follows the source closely:

* `src/lib/time.js` (`hoursBetween`, shipped in the repository as the module
  imported by every page): durations in decimal hours between two instants.
* `src/pages/Week.jsx` (the current file under `src/src/pages/Week.jsx`):
  `roundToQuarterHour`, `formatHoursHM`, `splitWeekBucketsFromDailyTotals`,
  and the `weekly` aggregation `useMemo`.
* the `Week.jsx` variants kept in the repository (`kmTotal` including
  `km_retour`; the variant with `parseJobDate`, `clamp`, `makeDayTime` and a
  daily-recap map before weekly bucketing).

Modelling conventions:

* JavaScript numbers are modelled as exact rationals `ℚ`; the explicit
  rounding operations of the source (`Math.round`) are modelled exactly.
  IEEE-754 representation error of the arithmetic itself is not modelled.
  For the hour formatter, whose specified behaviour involves `NaN` and the
  infinities, a dedicated type `JNum` with the IEEE special values is used.
* Calendar dates are modelled as day numbers (days since 1970-01-01, a
  Thursday, as in the proleptic Gregorian calendar used by `dayjs`).
  Parsing is modelled by `Option`: `none` is an absent or unparseable value,
  `some` carries the parsed result (`ℤ` day number for dates, minutes for
  times). Instants are whole minutes since the epoch.
* A JavaScript `Map` is modelled as an association list in insertion order:
  `set` of a fresh key appends, `set` of a present key updates in place,
  which is exactly the iteration-order contract of `Map`.
-/

/-- JavaScript `Math.round` on a finite number: round half toward +∞. -/
def jround (x : ℚ) : ℤ := ⌊x + 1/2⌋

/-- JavaScript `%` on integers (remainder of truncating division,
taking the sign of the dividend). -/
def jsIntRem (a n : ℤ) : ℤ := a - n * Int.tdiv a n

/-- JavaScript `Math.trunc`-style truncation of a rational toward zero
(the integer part used by the `%` operator on non-integers). -/
def jtrunc (x : ℚ) : ℤ := if 0 ≤ x then ⌊x⌋ else -⌊-x⌋

/-! Calendar arithmetic.

`dayjs` works in the proleptic Gregorian calendar. Dates are modelled as
day numbers with epoch 1970-01-01 = day 0 (a Thursday). The two civil
conversions below are the standard era-based Gregorian algorithms.
-/

/-- Day number (days since 1970-01-01) of the civil date `y-m-d`,
proleptic Gregorian. -/
def daysFromCivil (y m d : ℤ) : ℤ :=
  let y' := if m ≤ 2 then y - 1 else y
  let era := Int.fdiv y' 400
  let yoe := y' - era * 400
  let mp := if 2 < m then m - 3 else m + 9
  let doy := Int.fdiv (153 * mp + 2) 5 + d - 1
  let doe := yoe * 365 + Int.fdiv yoe 4 - Int.fdiv yoe 100 + doy
  era * 146097 + doe - 719468

/-- Calendar year containing day number `z` (inverse of `daysFromCivil`
restricted to the year component), proleptic Gregorian. -/
def yearOfDay (z : ℤ) : ℤ :=
  let z' := z + 719468
  let era := Int.fdiv z' 146097
  let doe := z' - era * 146097
  let yoe := Int.fdiv (doe - Int.fdiv doe 1460 + Int.fdiv doe 36524 - Int.fdiv doe 146096) 365
  let y := yoe + era * 400
  let doy := doe - (365 * yoe + Int.fdiv yoe 4 - Int.fdiv yoe 100)
  let mp := Int.fdiv (5 * doy + 2) 153
  let m := if mp < 10 then mp + 3 else mp - 9
  if m ≤ 2 then y + 1 else y

/-- Model of `dayjs(...).startOf("isoWeek")` at day granularity: the Monday of the
ISO week containing day `z`. Day 0 (1970-01-01) is a Thursday, so
`(z + 3) mod 7` is the 0-based ISO weekday (0 = Monday). -/
def isoWeekStart (z : ℤ) : ℤ := z - Int.emod (z + 3) 7

/-! Embedding of `src/lib/time.js`. -/

/-- Function `hoursBetween(start, end)` from `src/lib/time.js`.

```js
export function hoursBetween(start, end) {
  if (!start || !end) return 0;
  const s = dayjs(start); const e = dayjs(end);
  if (!s.isValid() || !e.isValid()) return 0;
  const diffMinutes = e.diff(s, "minute");
  if (diffMinutes <= 0) return 0;
  return Math.round((diffMinutes / 60) * 100) / 100;
}
```

Instants are whole minutes since the epoch; a `null`/invalid endpoint is
`none`, and `e.diff(s, "minute")` on whole-minute instants is exact
integer subtraction. -/
def hoursBetween (start «end» : Option ℤ) : ℚ :=
  match start, «end» with
  | some s, some e =>
    let diffMinutes := e - s
    if diffMinutes ≤ 0 then 0
    else (jround ((diffMinutes : ℚ) / 60 * 100) : ℚ) / 100
  | _, _ => 0

/-! Embedding of `src/pages/Week.jsx` (the current file). -/

/-- Constant `DAILY_REGULAR_HOURS` from `Week.jsx`: first 8 hours of a day at 1.0x. -/
def DAILY_REGULAR_HOURS : ℚ := 8

/-- Constant `WEEKLY_OT_FIRST_TIER_HOURS` from `Week.jsx`: first overtime hour of a
week at 1.5x. -/
def WEEKLY_OT_FIRST_TIER_HOURS : ℚ := 1

/-- Function `roundToQuarterHour(hours)` from `Week.jsx`:

```js
function roundToQuarterHour(hours) {
  const h = Number(hours);
  if (!Number.isFinite(h) || h <= 0) return 0;
  return Math.round(h * 4) / 4; // 0.25h increments
}
```

In the rational model the argument is always finite, so the
`Number.isFinite` guard reduces to the sign test. -/
def roundToQuarterHour (hours : ℚ) : ℚ :=
  if hours ≤ 0 then 0 else (jround (hours * 4) : ℚ) / 4

/-- The daily stage of the overtime policy, as it appears inline in
`Week.jsx` (`Math.min(DAILY_REGULAR_HOURS, dayHours)`,
`Math.max(0, dayHours - DAILY_REGULAR_HOURS)`): regular and overtime
hours of a day with `dayHours` total hours. -/
def dailySplit (dayHours : ℚ) : ℚ × ℚ :=
  (min DAILY_REGULAR_HOURS dayHours, max 0 (dayHours - DAILY_REGULAR_HOURS))

/-- The weekly tiering stage, as it appears in `Week.jsx`
(lines computing `hours_15x`/`hours_2x`) and in the `Week.jsx` variant
(`ot15`/`ot20`): splits a week's accumulated overtime into the 1.5x and
2.0x tiers. -/
def weeklyTierStage (weekOvertimeTotal : ℚ) : ℚ × ℚ :=
  (min WEEKLY_OT_FIRST_TIER_HOURS weekOvertimeTotal,
   max 0 (weekOvertimeTotal - WEEKLY_OT_FIRST_TIER_HOURS))

/-- The week's accumulated overtime over a list of raw per-day totals, as
accumulated by the loop of `splitWeekBucketsFromDailyTotals`. -/
def weekOvertimeTotal (dayHoursValues : List ℚ) : ℚ :=
  dayHoursValues.foldl
    (fun acc raw => acc + max 0 (roundToQuarterHour raw - DAILY_REGULAR_HOURS)) 0

/-- Function `splitWeekBucketsFromDailyTotals(dayHoursMap)` from `Week.jsx`, over the
insertion-ordered list of per-day raw totals (`dayHoursMap.values()`):

```js
function splitWeekBucketsFromDailyTotals(dayHoursMap) {
  let hours_1x = 0;
  let overtime_total = 0;
  for (const raw of dayHoursMap.values()) {
    const dayHours = roundToQuarterHour(raw);
    hours_1x += Math.min(DAILY_REGULAR_HOURS, dayHours);
    overtime_total += Math.max(0, dayHours - DAILY_REGULAR_HOURS);
  }
  const hours_15x = Math.min(WEEKLY_OT_FIRST_TIER_HOURS, overtime_total);
  const hours_2x = Math.max(0, overtime_total - WEEKLY_OT_FIRST_TIER_HOURS);
  return { hours_1x, hours_15x, hours_2x };
}
```
-/
def splitWeekBucketsFromDailyTotals (dayHoursValues : List ℚ) : ℚ × ℚ × ℚ :=
  let acc := dayHoursValues.foldl
    (fun (acc : ℚ × ℚ) raw =>
      let dayHours := roundToQuarterHour raw
      (acc.1 + min DAILY_REGULAR_HOURS dayHours,
       acc.2 + max 0 (dayHours - DAILY_REGULAR_HOURS)))
    (0, 0)
  let hours_15x := min WEEKLY_OT_FIRST_TIER_HOURS acc.2
  let hours_2x := max 0 (acc.2 - WEEKLY_OT_FIRST_TIER_HOURS)
  (acc.1, hours_15x, hours_2x)

/-- Function `clamp(n, min, max)` from the `Week.jsx` variant with a daily-recap map:
`Math.max(min, Math.min(max, n))`. -/
def clamp (n lo hi : ℚ) : ℚ := max lo (min hi n)

/-! A JavaScript `Map` as an insertion-ordered association list.
`Map.prototype.set` of a fresh key appends; of a present key it updates the
value in place; `values()` iterates in insertion order. The source always
initialises a key with `if (!map.has(key)) map.set(key, init)` before
mutating the stored object, which is `mapUpdate` below on the extended list. -/

/-- Membership test of a key, modelling `map.has(key)`. -/
def mapMem {κ α : Type} [DecidableEq κ] (m : List (κ × α)) (k : κ) : Bool :=
  m.any (fun p => p.1 = k)

/-- Lookup with default, modelling `map.get(key) || dflt`. -/
def mapGetD {κ α : Type} [DecidableEq κ] : List (κ × α) → κ → α → α
  | [], _, dflt => dflt
  | (k', v) :: rest, k, dflt => if k' = k then v else mapGetD rest k dflt

/-- In-place update of the value stored at the (first occurrence of the)
key, modelling mutation of the object returned by `map.get(key)`. -/
def mapUpdate {κ α : Type} [DecidableEq κ] (f : α → α) :
    List (κ × α) → κ → List (κ × α)
  | [], _ => []
  | (k', v) :: rest, k =>
    if k' = k then (k', f v) :: rest else (k', v) :: mapUpdate f rest k

/-- Insert-or-update, modelling `map.set(key, v)`. -/
def mapSet {κ α : Type} [DecidableEq κ] : List (κ × α) → κ → α → List (κ × α)
  | [], k, v => [(k, v)]
  | (k', v') :: rest, k, v =>
    if k' = k then (k', v) :: rest else (k', v') :: mapSet rest k v

/-- A raw job record as consumed by the aggregations. Parsing of the
heterogeneous raw representations is modelled by `Option`: `job_date` is
`some day` exactly when the raw date value parses (to calendar day number
`day`), `depart`/`fin` are `some minutes` exactly when the raw `HH:mm[:ss]`
string parses (to minutes after midnight); `km_aller`/`km_retour` are the
optional numeric distance fields; `ot` models `isNonEmptyOT(j.ot)`. -/
structure Job where
  job_date : Option ℤ
  depart : Option ℤ
  fin : Option ℤ
  km_aller : Option ℚ
  km_retour : Option ℚ
  ot : Bool
deriving DecidableEq

/-- Function `makeDayjsFromJob(job_date, timeStr)` from `Week.jsx`:
`dayjs(job_date + "T" + timeStr)`, `null` when either part is missing or
the combined string does not parse; otherwise the instant at `timeStr`
on day `job_date`, in minutes since the epoch. -/
def makeDayjsFromJob (job_date timeStr : Option ℤ) : Option ℤ :=
  match job_date, timeStr with
  | some d, some t => some (1440 * d + t)
  | _, _ => none

/-- Function `kmTotal(job)` from the `Week.jsx` variant that includes the
return trip: `(Number(job?.km_aller ?? 0) || 0) + (Number(job?.km_retour ?? 0) || 0)`. -/
def kmTotal (j : Job) : ℚ := j.km_aller.getD 0 + j.km_retour.getD 0

/-- The week key computed by `Week.jsx` (and its `kmTotal` variant):
`weekStart.format("YYYY-[W]WW")`.

Only the `isoWeek` dayjs plugin is loaded by these files; the
`advancedFormat` plugin, which defines the `W`/`WW` (ISO week of year)
format tokens, is not. The dayjs core token set is
`Y{1,4} M{1,4} D{1,2} d{1,4} H{1,2} h{1,2} a A m{1,2} s{1,2} Z{1,2} SSS`
plus bracketed literals, and unrecognised characters pass through
unchanged. Hence `"YYYY-[W]WW"` renders as the calendar year of the week
start followed by the literal text `-WWW`. Formatting an invalid date
yields the string `"Invalid Date"`. -/
def weekKeyW (job_date : Option ℤ) : String :=
  match job_date with
  | none => "Invalid Date"
  | some z => toString (yearOfDay (isoWeekStart z)) ++ "-WWW"

/-- Per-week accumulator of the `weekly` `useMemo` of `Week.jsx`:
`{ start, end, totalKm, dayHours }`. An invalid `start` (unparseable date)
is `none`. `dayHours` maps day key (`"YYYY-MM-DD"`, or `"Invalid Date"`,
hence `Option ℤ`) to accumulated raw hours. -/
structure WeekAccW where
  start : Option ℤ
  weekEnd : Option ℤ
  totalKm : ℚ
  dayHours : List (Option ℤ × ℚ)
deriving DecidableEq

/-- Loop body of the `weekly` `useMemo` of `Week.jsx` for one record `j`:

```js
const d1 = makeDayjsFromJob(j.job_date, j.depart);
const d2 = makeDayjsFromJob(j.job_date, j.fin);
const hours = roundToQuarterHour(hoursBetween(d1, d2) || 0);
const km = j.km_aller ?? 0;
const weekStart = dayjs(j.job_date).startOf("isoWeek");
const key = weekStart.format("YYYY-[W]WW");
if (!map.has(key)) map.set(key, { start, end, totalKm: 0, dayHours: new Map() });
const w = map.get(key);
w.totalKm += km;
const dayKey = dayjs(j.job_date).format("YYYY-MM-DD");
const prev = w.dayHours.get(dayKey) || 0;
w.dayHours.set(dayKey, prev + hours);
```

(`hoursBetween` never returns `NaN` in the rational model, so `|| 0` is
the identity there.) -/
def weekStepW (m : List (String × WeekAccW)) (j : Job) : List (String × WeekAccW) :=
  let d1 := makeDayjsFromJob j.job_date j.depart
  let d2 := makeDayjsFromJob j.job_date j.fin
  let hours := roundToQuarterHour (hoursBetween d1 d2)
  let km := j.km_aller.getD 0
  let weekStart := j.job_date.map isoWeekStart
  let key := weekKeyW j.job_date
  let m1 := if mapMem m key then m
            else m ++ [(key, ⟨weekStart, weekStart.map (· + 6), 0, []⟩)]
  mapUpdate (fun w =>
    { w with totalKm := w.totalKm + km,
             dayHours := mapSet w.dayHours j.job_date
               (mapGetD w.dayHours j.job_date 0 + hours) }) m1 key

/-- Loop body of the `weekly` `useMemo` of the `kmTotal` variant: identical
to `weekStepW` except that the distance line is `w.totalKm += kmTotal(j)`
(the variant marked "include km_retour if present"). -/
def weekStep1 (m : List (String × WeekAccW)) (j : Job) : List (String × WeekAccW) :=
  let d1 := makeDayjsFromJob j.job_date j.depart
  let d2 := makeDayjsFromJob j.job_date j.fin
  let hours := roundToQuarterHour (hoursBetween d1 d2)
  let km := kmTotal j
  let weekStart := j.job_date.map isoWeekStart
  let key := weekKeyW j.job_date
  let m1 := if mapMem m key then m
            else m ++ [(key, ⟨weekStart, weekStart.map (· + 6), 0, []⟩)]
  mapUpdate (fun w =>
    { w with totalKm := w.totalKm + km,
             dayHours := mapSet w.dayHours j.job_date
               (mapGetD w.dayHours j.job_date 0 + hours) }) m1 key

/-- An output week card of `Week.jsx` (`out.push({...})`). -/
structure BucketW where
  start : Option ℤ
  weekEnd : Option ℤ
  totalKm : ℚ
  totalHours : ℚ
  hours1x : ℚ
  hours15x : ℚ
  hours2x : ℚ
deriving DecidableEq

/-- Comparator primitive `x.isAfter(y)` on dayjs values: strict order on
valid instants, `false` whenever either side is invalid. -/
def optIsAfter (x y : Option ℤ) : Bool :=
  match x, y with
  | some a, some b => decide (b < a)
  | _, _ => false

/-- The final `out.sort((a, b) => (b.start.isAfter(a.start) ? 1 : -1))` of
`Week.jsx`: `a` is placed before `b` exactly when the comparator is
negative, i.e. when `b.start` is not after `a.start`. The comparator is
consistent whenever the starts are pairwise distinct and valid, and any
comparison sort then produces the unique descending order; `insertionSort`
realises it. -/
def sortBucketsW (l : List BucketW) : List BucketW :=
  List.insertionSort (fun a b => optIsAfter b.start a.start = false) l

/-- The `weekly` `useMemo` of `Week.jsx`, end to end: fold the records into
week buckets, compute each card's totals and tier splits, sort newest
first. `totalHours` re-rounds each accumulated day total to the quarter
hour before summation, exactly as the source loop does. -/
def weeklyW (jobs : List Job) : List BucketW :=
  let m := jobs.foldl weekStepW []
  let out := m.map (fun p =>
    let w := p.2
    let dayVals := w.dayHours.map (fun q => q.2)
    let totalHours := dayVals.foldl (fun acc h => acc + roundToQuarterHour h) 0
    let s := splitWeekBucketsFromDailyTotals dayVals
    { start := w.start, weekEnd := w.weekEnd, totalKm := w.totalKm,
      totalHours := totalHours, hours1x := s.1, hours15x := s.2.1,
      hours2x := s.2.2 : BucketW })
  sortBucketsW out

/-! Embedding of the `Week.jsx` variant with a daily-recap stage
(`parseJobDate`, `makeDayTime`, `clamp`, per-day `dailyMap`, weekly map
keyed by the week-start date `"YYYY-MM-DD"`). -/

/-- Function `parseJobDate(job_date)` from the variant: tries an explicit
ordered list of formats (`YYYY-MM-DD`, two ISO timestamp shapes,
`DD MMM YYYY`) and falls back to general parsing; `null` when nothing
parses. Modelled at the granularity of its result: a raw date value is
`some day` when some format yields a valid date with calendar day `day`,
`none` otherwise. -/
def parseJobDate (job_date : Option ℤ) : Option ℤ := job_date

/-- Function `makeDayTime(job_date, timeStr)` from the variant:
`parseJobDate`, then `dayjs(d.format("YYYY-MM-DD") + "T" + timeStr.slice(0, 5))`;
`null` when the date or the time is missing or unparseable. -/
def makeDayTime (job_date timeStr : Option ℤ) : Option ℤ :=
  match parseJobDate job_date, timeStr with
  | some d, some t => some (1440 * d + t)
  | _, _ => none

/-- A per-day recap entry of the variant's `dailyMap`:
`{ date, hours, km, otCount, jobCount }`. -/
structure DayTotal where
  date : ℤ
  hours : ℚ
  km : ℚ
  otCount : ℕ
  jobCount : ℕ
deriving DecidableEq

/-- Loop body of the variant's daily aggregation for one record `j`:

```js
const d = parseJobDate(j.job_date);
if (!d) continue;
const dayKey = d.format("YYYY-MM-DD");
if (!dailyMap.has(dayKey)) dailyMap.set(dayKey, { date: d, hours: 0, km: 0, otCount: 0, jobCount: 0 });
const day = dailyMap.get(dayKey);
day.jobCount += 1;
const d1 = makeDayTime(j.job_date, j.depart);
const d2 = makeDayTime(j.job_date, j.fin);
if (d1 && d2) day.hours += hoursBetween(d1, d2) || 0;
day.km += Number(j.km_aller ?? 0) || 0;
if (isNonEmptyOT(j.ot)) day.otCount += 1;
```
-/
def dailyStep (m : List (ℤ × DayTotal)) (j : Job) : List (ℤ × DayTotal) :=
  match parseJobDate j.job_date with
  | none => m
  | some d =>
    let m1 := if mapMem m d then m else m ++ [(d, ⟨d, 0, 0, 0, 0⟩)]
    mapUpdate (fun day =>
      let day := { day with jobCount := day.jobCount + 1 }
      let day :=
        match makeDayTime j.job_date j.depart, makeDayTime j.job_date j.fin with
        | some d1, some d2 =>
          { day with hours := day.hours + hoursBetween (some d1) (some d2) }
        | _, _ => day
      let day := { day with km := day.km + j.km_aller.getD 0 }
      if j.ot then { day with otCount := day.otCount + 1 } else day) m1 d

/-- Per-week accumulator of the variant's `weeklyMap`, keyed by the week
start (`weekStart.format("YYYY-MM-DD")`, i.e. the Monday's day number). -/
structure WeekAcc2 where
  start : ℤ
  weekEnd : ℤ
  regularHours : ℚ
  overtimeHours : ℚ
  totalKm : ℚ
  dayKeys : List ℤ
deriving DecidableEq

/-- Loop body of the variant's weekly aggregation for one day total:

```js
const weekStart = day.date.startOf("isoWeek");
const weekKey = weekStart.format("YYYY-MM-DD");
const regular = clamp(day.hours, 0, 8);
const overtime = Math.max(day.hours - 8, 0);
if (!weeklyMap.has(weekKey)) weeklyMap.set(weekKey, { start, end, regularHours: 0, overtimeHours: 0, totalKm: 0, dayKeys: [] });
const w = weeklyMap.get(weekKey);
w.regularHours += regular;
w.overtimeHours += overtime;
w.totalKm += day.km;
w.dayKeys.push(day.date.format("YYYY-MM-DD"));
```
-/
def weeklyStep2 (m : List (ℤ × WeekAcc2)) (day : DayTotal) : List (ℤ × WeekAcc2) :=
  let weekStart := isoWeekStart day.date
  let regular := clamp day.hours 0 8
  let overtime := max (day.hours - 8) 0
  let m1 := if mapMem m weekStart then m
            else m ++ [(weekStart, ⟨weekStart, weekStart + 6, 0, 0, 0, []⟩)]
  mapUpdate (fun w =>
    { w with regularHours := w.regularHours + regular,
             overtimeHours := w.overtimeHours + overtime,
             totalKm := w.totalKm + day.km,
             dayKeys := w.dayKeys ++ [day.date] }) m1 weekStart

/-- An output week summary of the variant (`weeklyArr` element). -/
structure Bucket2 where
  start : ℤ
  weekEnd : ℤ
  regularHours : ℚ
  overtimeHours : ℚ
  totalKm : ℚ
  ot15 : ℚ
  ot20 : ℚ
  totalHours : ℚ
  dayKeys : List ℤ
deriving DecidableEq

/-- The variant's `weekly` computation, end to end: daily recap fold, weekly
fold over the daily totals in insertion order (`dailyMap.values()`), the
per-week summary (`ot15 = Math.min(w.overtimeHours, 1)`,
`ot20 = Math.max(w.overtimeHours - 1, 0)`,
`totalHours = w.regularHours + w.overtimeHours`, day keys de-duplicated and
sorted newest first), and the final
`weeklyArr.sort((a, b) => (a.start.isAfter(b.start) ? -1 : 1))`, which on
pairwise-distinct starts is the unique descending order by `start`;
`insertionSort` with `b.start ≤ a.start` realises it. -/
def weekly2 (jobs : List Job) : List Bucket2 :=
  let dailyMap := jobs.foldl dailyStep []
  let weeklyMap := (dailyMap.map (fun p => p.2)).foldl weeklyStep2 []
  let weeklyArr := weeklyMap.map (fun p =>
    let w := p.2
    { start := w.start, weekEnd := w.weekEnd, regularHours := w.regularHours,
      overtimeHours := w.overtimeHours, totalKm := w.totalKm,
      ot15 := min w.overtimeHours 1, ot20 := max (w.overtimeHours - 1) 0,
      totalHours := w.regularHours + w.overtimeHours,
      dayKeys := List.insertionSort (fun a b : ℤ => b ≤ a) w.dayKeys.dedup : Bucket2 })
  List.insertionSort (fun a b => b.start ≤ a.start) weeklyArr

/-! Embedding of the hour formatter. Its specified contract mentions `NaN`
and non-finite inputs, so JavaScript numbers are modelled here by a type
with the IEEE special values; finite values stay exact rationals.
(JavaScript `-0` behaves as `0` in every operation used below, including
`String(-0) = "0"`, so it needs no separate representative.) -/

/-- A JavaScript number: a finite value, `NaN`, `Infinity` or `-Infinity`. -/
inductive JNum where
  | finite (q : ℚ)
  | nan
  | posinf
  | neginf
deriving DecidableEq

/-- JavaScript truthiness of a number: `0`, `-0` and `NaN` are falsy. -/
def jsTruthy : JNum → Bool
  | .finite q => decide (q ≠ 0)
  | .nan => false
  | .posinf => true
  | .neginf => true

/-- The test `hours <= 0`: comparisons with `NaN` are `false`. -/
def jsLeZero : JNum → Bool
  | .finite q => decide (q ≤ 0)
  | .nan => false
  | .posinf => false
  | .neginf => true

/-- Multiplication by the positive literal `60`. -/
def jsMul60 : JNum → JNum
  | .finite q => .finite (q * 60)
  | x => x

/-- `Math.round`: round half toward +∞ on finite values, identity on
`NaN` and the infinities. -/
def jsMathRound : JNum → JNum
  | .finite q => .finite ((jround q : ℤ) : ℚ)
  | x => x

/-- Division by the positive literal `60`. -/
def jsDiv60 : JNum → JNum
  | .finite q => .finite (q / 60)
  | x => x

/-- `Math.floor`: identity on `NaN` and the infinities. -/
def jsMathFloor : JNum → JNum
  | .finite q => .finite ((⌊q⌋ : ℤ) : ℚ)
  | x => x

/-- The remainder `x % 60`: `x - 60 * Math.trunc(x / 60)` on finite values,
`NaN` when `x` is `NaN` or infinite. -/
def jsMod60 : JNum → JNum
  | .finite q => .finite (q - 60 * ((jtrunc (q / 60) : ℤ) : ℚ))
  | .nan => .nan
  | .posinf => .nan
  | .neginf => .nan

/-- JavaScript `String(x)` / template interpolation of a number, on the
values reachable in the formatters: integer-valued finite numbers render
in decimal (`-0` as `"0"`), the special values as `"NaN"`,
`"Infinity"` and `"-Infinity"`. (A non-integer finite value never reaches
`String` in the formatters — both interpolated values come out of
`Math.floor` and `%` of integers — so its rendering, shortest round-trip
decimal in JavaScript, is represented here by the numerator-slash-
denominator form.) -/
def jsNumToString : JNum → String
  | .finite q =>
    if q.den = 1 then toString q.num
    else toString q.num ++ "/" ++ toString q.den
  | .nan => "NaN"
  | .posinf => "Infinity"
  | .neginf => "-Infinity"

/-- String method `padStart(2, "0")`. -/
def jsPadStart2 (s : String) : String :=
  if s.length < 2 then String.mk (List.replicate (2 - s.length) '0') ++ s else s

/-- Function `formatHoursHM(hours)` from `Week.jsx`:

```js
function formatHoursHM(hours) {
  if (!hours || hours <= 0) return "0h00";
  const totalMinutes = Math.round(hours * 60);
  const h = Math.floor(totalMinutes / 60);
  const m = totalMinutes % 60;
  return `${h}h${String(m).padStart(2, "0")}`;
}
```
-/
def formatHoursHM (hours : JNum) : String :=
  if jsTruthy hours = false ∨ jsLeZero hours = true then "0h00"
  else
    let totalMinutes := jsMathRound (jsMul60 hours)
    let h := jsMathFloor (jsDiv60 totalMinutes)
    let m := jsMod60 totalMinutes
    jsNumToString h ++ "h" ++ jsPadStart2 (jsNumToString m)

/-- Function `formatHoursHM(hoursFloat)` from the daily-recap `Week.jsx`
variant (no guard clause):

```js
function formatHoursHM(hoursFloat) {
  const totalMinutes = Math.round((hoursFloat || 0) * 60);
  const h = Math.floor(totalMinutes / 60);
  const m = totalMinutes % 60;
  return `${h}h${String(m).padStart(2, "0")}`;
}
```
-/
def formatHoursHM2 (hoursFloat : JNum) : String :=
  let coerced := if jsTruthy hoursFloat then hoursFloat else .finite 0
  let totalMinutes := jsMathRound (jsMul60 coerced)
  let h := jsMathFloor (jsDiv60 totalMinutes)
  let m := jsMod60 totalMinutes
  jsNumToString h ++ "h" ++ jsPadStart2 (jsNumToString m)

/-! Concrete records used to witness the theorems below on explicit inputs. -/

/-- A record on Monday 2024-01-01 (day 19723), 07:00 to 16:00 (9 h), 2 km out. -/
def jobMonday9h : Job := ⟨some 19723, some 420, some 960, some 2, none, false⟩

/-- The single week card produced by `Week.jsx` for `jobMonday9h`. -/
def bucketMonday9h : BucketW := ⟨some 19723, some 19729, 2, 9, 8, 1, 0⟩

/-- The single week summary produced by the daily-recap variant for `jobMonday9h`. -/
def bucket2Monday9h : Bucket2 := ⟨19723, 19729, 8, 1, 2, 1, 0, 9, [19723]⟩

/-- A record on 2024-01-01 with both times missing and only a 5 km return trip. -/
def jobNoTimesKm5 : Job := ⟨some 19723, none, none, none, some 5, false⟩

/-- A record in ISO week 2024-W01 (Monday 2024-01-01), 08:00 to 16:00. -/
def jobWeekA : Job := ⟨some 19723, some 480, some 960, some 0, some 0, false⟩

/-- A record in ISO week 2024-W02 (Monday 2024-01-08), 08:00 to 16:00. -/
def jobWeekB : Job := ⟨some 19730, some 480, some 960, some 0, some 0, false⟩

/-- A record in ISO week 2025-W02 (Monday 2025-01-06, day 20094), 08:00 to 16:00. -/
def jobWeek2025 : Job := ⟨some 20094, some 480, some 960, some 0, some 0, false⟩

/-- A record whose date does not parse. -/
def jobBadDate : Job := ⟨none, some 480, some 960, some 1, none, false⟩

/-- A record with a depart time but no end time. -/
def jobNoEnd : Job := ⟨some 19723, some 480, none, some 1, none, false⟩

/-- Observer: total hours accumulated across the daily-recap map. -/
def sumDailyHours (m : List (ℤ × DayTotal)) : ℚ := (m.map (fun p => p.2.hours)).sum

/-- Observer: total distance accumulated across the daily-recap map. -/
def sumDailyKm (m : List (ℤ × DayTotal)) : ℚ := (m.map (fun p => p.2.km)).sum

/-- Observer: total distance accumulated across a `Week.jsx` week map. -/
def sumWeekKm (m : List (String × WeekAccW)) : ℚ := (m.map (fun p => p.2.totalKm)).sum

/-! Helper lemmas. -/

/-- Rounding half-up moves a value by at most half a unit. -/
theorem jround_abs_sub_le (x : ℚ) : |((jround x : ℤ) : ℚ) - x| ≤ 1/2 := by
  rw [jround, abs_le]
  constructor
  · linarith [Int.lt_floor_add_one (x + 1/2)]
  · linarith [Int.floor_le (x + 1/2)]

/-- Rounding half-up preserves nonnegativity. -/
theorem jround_nonneg {x : ℚ} (h : 0 ≤ x) : 0 ≤ jround x :=
  Int.floor_nonneg.2 (by linarith)

/-- Quarter-hour rounding never returns a negative value. -/
theorem roundToQuarterHour_nonneg (h : ℚ) : 0 ≤ roundToQuarterHour h := by
  rw [roundToQuarterHour]
  split
  · exact le_refl 0
  · have : (0 : ℚ) ≤ (jround (h * 4) : ℚ) := by
      exact_mod_cast jround_nonneg (by linarith)
    linarith

/-- Splitting a nonnegative quantity at a nonnegative threshold loses
nothing: `min a h + max 0 (h - a) = h`. -/
theorem min_add_max_sub (a h : ℚ) :
    min a h + max 0 (h - a) = h := by
  rcases le_total h a with hc | hc
  · rw [min_eq_right hc, max_eq_left (by linarith)]
    ring
  · rw [min_eq_left hc, max_eq_right (by linarith)]
    ring

/-- Folding an accumulating sum equals the initial value plus the mapped sum. -/
theorem foldl_add_sum {α : Type} (g : α → ℚ) (l : List α) (a : ℚ) :
    l.foldl (fun acc x => acc + g x) a = a + (l.map g).sum := by
  induction l generalizing a with
  | nil => simp
  | cons x xs ih => simp [ih]; ring

/-- The loop of `splitWeekBucketsFromDailyTotals` computes the two mapped sums. -/
theorem splitWeekBuckets_foldl (l : List ℚ) (a b : ℚ) :
    l.foldl (fun (acc : ℚ × ℚ) raw =>
      let dayHours := roundToQuarterHour raw
      (acc.1 + min DAILY_REGULAR_HOURS dayHours,
       acc.2 + max 0 (dayHours - DAILY_REGULAR_HOURS))) (a, b)
    = (a + (l.map (fun r => min DAILY_REGULAR_HOURS (roundToQuarterHour r))).sum,
       b + (l.map (fun r => max 0 (roundToQuarterHour r - DAILY_REGULAR_HOURS))).sum) := by
  induction l generalizing a b with
  | nil => simp
  | cons x xs ih => simp [ih]; constructor <;> ring

/-- Closed form of `splitWeekBucketsFromDailyTotals`. -/
theorem splitWeekBuckets_eq (l : List ℚ) :
    splitWeekBucketsFromDailyTotals l
      = ((l.map (fun r => min DAILY_REGULAR_HOURS (roundToQuarterHour r))).sum,
         min WEEKLY_OT_FIRST_TIER_HOURS
           ((l.map (fun r => max 0 (roundToQuarterHour r - DAILY_REGULAR_HOURS))).sum),
         max 0 ((l.map (fun r => max 0 (roundToQuarterHour r - DAILY_REGULAR_HOURS))).sum
           - WEEKLY_OT_FIRST_TIER_HOURS)) := by
  rw [splitWeekBucketsFromDailyTotals]
  rw [show ((0 : ℚ), (0 : ℚ)) = ((0 : ℚ), (0 : ℚ)) from rfl]
  rw [splitWeekBuckets_foldl]
  simp

/-- The accumulated weekly overtime is the mapped sum of daily overtimes. -/
theorem weekOvertimeTotal_eq (l : List ℚ) :
    weekOvertimeTotal l
      = (l.map (fun r => max 0 (roundToQuarterHour r - DAILY_REGULAR_HOURS))).sum := by
  rw [weekOvertimeTotal, foldl_add_sum]
  ring

/-- The accumulated weekly overtime is nonnegative. -/
theorem weekOvertimeTotal_nonneg (l : List ℚ) : 0 ≤ weekOvertimeTotal l := by
  rw [weekOvertimeTotal_eq]
  exact List.sum_nonneg (by
    intro x hx
    obtain ⟨r, _, rfl⟩ := List.mem_map.1 hx
    exact le_max_left 0 _)

/-- C1. For every non-negative weekly accumulated overtime total, the weekly
tiering stage returns `tier1 = min(1, weekOvertimeTotal)` and
`tier2 = max(0, weekOvertimeTotal - 1)`, so `tier1 + tier2` equals the
accumulated overtime and `tier1` never exceeds 1 (default first-tier
threshold of 1 hour); moreover `splitWeekBucketsFromDailyTotals` applies
exactly this stage to its accumulated overtime, which is nonnegative. -/
theorem weeklyTierStage_correct :
    (∀ t : ℚ, 0 ≤ t →
      (weeklyTierStage t).1 = min 1 t ∧ (weeklyTierStage t).2 = max 0 (t - 1) ∧
      (weeklyTierStage t).1 + (weeklyTierStage t).2 = t ∧ (weeklyTierStage t).1 ≤ 1)
    ∧ (∀ l : List ℚ,
        ((splitWeekBucketsFromDailyTotals l).2.1, (splitWeekBucketsFromDailyTotals l).2.2)
          = weeklyTierStage (weekOvertimeTotal l) ∧ 0 ≤ weekOvertimeTotal l) := by
  constructor
  · intro t ht
    refine ⟨rfl, rfl, ?_, min_le_left _ _⟩
    exact min_add_max_sub 1 t
  · intro l
    refine ⟨?_, weekOvertimeTotal_nonneg l⟩
    rw [splitWeekBuckets_eq, weekOvertimeTotal_eq, weeklyTierStage]

/-- Witness for C1 at the accumulated overtime 3: the tiers are 1 h and 2 h. -/
theorem weeklyTierStage_correct_witness :
    (weeklyTierStage 3).1 = min 1 3 ∧ (weeklyTierStage 3).2 = max 0 (3 - 1) ∧
    (weeklyTierStage 3).1 + (weeklyTierStage 3).2 = 3 ∧ (weeklyTierStage 3).1 ≤ 1 :=
  weeklyTierStage_correct.1 3 (by norm_num)

/-- C2. For every non-negative daily total `h`, the daily stage returns
`regular = min(8, h)` and `overtime = max(0, h - 8)`, so
`regular + overtime = h` (default daily threshold 8); the variant's
`clamp(h, 0, 8)` agrees with `min(8, h)` there. -/
theorem dailySplit_correct :
    ∀ h : ℚ, 0 ≤ h →
      (dailySplit h).1 = min 8 h ∧ (dailySplit h).2 = max 0 (h - 8) ∧
      (dailySplit h).1 + (dailySplit h).2 = h ∧ clamp h 0 8 = (dailySplit h).1 := by
  intro h hh
  refine ⟨rfl, rfl, min_add_max_sub 8 h, ?_⟩
  rw [clamp, dailySplit]
  show max 0 (min 8 h) = min DAILY_REGULAR_HOURS h
  rw [DAILY_REGULAR_HOURS, max_eq_right (le_min (by norm_num) hh)]

/-- Witness for C2 at a 10-hour day: regular 8 h, overtime 2 h. -/
theorem dailySplit_correct_witness :
    (dailySplit 10).1 = min 8 10 ∧ (dailySplit 10).2 = max 0 (10 - 8) ∧
    (dailySplit 10).1 + (dailySplit 10).2 = 10 ∧ clamp 10 0 8 = (dailySplit 10).1 :=
  dailySplit_correct 10 (by norm_num)

/-! Map-model lemmas. -/

/-- Key membership in the association-list map, as list membership of keys. -/
theorem mapMem_iff_mem_keys {κ α : Type} [DecidableEq κ] (m : List (κ × α)) (k : κ) :
    mapMem m k = true ↔ k ∈ m.map Prod.fst := by
  simp [mapMem, List.any_eq_true, List.mem_map]

/-- Appending an entry makes its key a member. -/
theorem mapMem_append_self {κ α : Type} [DecidableEq κ] (m : List (κ × α)) (k : κ) (v : α) :
    mapMem (m ++ [(k, v)]) k = true := by
  rw [mapMem_iff_mem_keys]
  simp

/-- Updating an absent key is the identity. -/
theorem mapUpdate_of_not_mem {κ α : Type} [DecidableEq κ] (f : α → α)
    (m : List (κ × α)) (k : κ) (h : mapMem m k = false) : mapUpdate f m k = m := by
  induction m with
  | nil => rfl
  | cons p rest ih =>
    simp only [mapMem, List.any_cons, Bool.or_eq_false_iff, decide_eq_false_iff_not] at h
    obtain ⟨h1, h2⟩ := h
    cases p with
    | mk k' v =>
      rw [mapUpdate, if_neg (by simpa using h1), ih (by simpa [mapMem] using h2)]

/-- Updating does not change the key sequence. -/
theorem mapUpdate_keys {κ α : Type} [DecidableEq κ] (f : α → α) (m : List (κ × α)) (k : κ) :
    (mapUpdate f m k).map Prod.fst = m.map Prod.fst := by
  induction m with
  | nil => rfl
  | cons p rest ih =>
    cases p with
    | mk k' v =>
      rw [mapUpdate]
      split
      · simp
      · simpa using ih

/-- Every entry of an updated map is an old entry or the image of one
(with the same key). -/
theorem mem_mapUpdate {κ α : Type} [DecidableEq κ] (f : α → α) (m : List (κ × α)) (k : κ) :
    ∀ p ∈ mapUpdate f m k, p ∈ m ∨ ∃ q ∈ m, p = (q.1, f q.2) := by
  induction m with
  | nil => intro p hp; simp [mapUpdate] at hp
  | cons hd rest ih =>
    cases hd with
    | mk k' v =>
      intro p hp
      rw [mapUpdate] at hp
      by_cases hk : k' = k
      · rw [if_pos hk] at hp
        rcases List.mem_cons.1 hp with h | h
        · exact Or.inr ⟨(k', v), List.mem_cons_self _ _, h⟩
        · exact Or.inl (List.mem_cons_of_mem _ h)
      · rw [if_neg hk] at hp
        rcases List.mem_cons.1 hp with h | h
        · exact Or.inl (h ▸ List.mem_cons_self _ _)
        · rcases ih p h with h' | ⟨q, hq, rfl⟩
          · exact Or.inl (List.mem_cons_of_mem _ h')
          · exact Or.inr ⟨q, List.mem_cons_of_mem _ hq, rfl⟩

/-- A projected sum over the map, after updating a present key with a
function that shifts the projection by `δ`, shifts by `δ`. -/
theorem sum_map_mapUpdate {κ α : Type} [DecidableEq κ] (g : α → ℚ) (f : α → α) (δ : ℚ)
    (hf : ∀ v, g (f v) = g v + δ) (m : List (κ × α)) (k : κ) (hm : mapMem m k = true) :
    ((mapUpdate f m k).map (fun p => g p.2)).sum = (m.map (fun p => g p.2)).sum + δ := by
  induction m with
  | nil => simp [mapMem] at hm
  | cons hd rest ih =>
    cases hd with
    | mk k' v =>
      rw [mapUpdate]
      by_cases hk : k' = k
      · rw [if_pos hk]
        simp [hf v]
        ring
      · rw [if_neg hk]
        simp only [mapMem, List.any_cons, Bool.or_eq_true, decide_eq_true_eq] at hm
        rcases hm with h | h
        · exact absurd h hk
        · simp only [List.map_cons, List.sum_cons, ih (by simpa [mapMem] using h)]
          ring

/-- A projected sum is unchanged by an update that preserves the projection. -/
theorem sum_map_mapUpdate_const {κ α : Type} [DecidableEq κ] (g : α → ℚ) (f : α → α)
    (hf : ∀ v, g (f v) = g v) (m : List (κ × α)) (k : κ) :
    ((mapUpdate f m k).map (fun p => g p.2)).sum = (m.map (fun p => g p.2)).sum := by
  by_cases hm : mapMem m k = true
  · simpa using sum_map_mapUpdate g f 0 (by simpa using hf) m k hm
  · rw [mapUpdate_of_not_mem f m k (by simpa using hm)]

/-- Fold-invariance principle for the aggregation loops. -/
theorem foldl_invariant {α β : Type} (f : β → α → β) (P : β → Prop) :
    ∀ (l : List α) (b : β), P b → (∀ b a, P b → P (f b a)) → P (l.foldl f b) := by
  intro l
  induction l with
  | nil => intro b hb _; exact hb
  | cons x xs ih => intro b hb hstep; exact ih (f b x) (hstep b x hb) hstep

/-- Unfolding of `hoursBetween` on two valid instants. -/
theorem hoursBetween_some_some (s e : ℤ) :
    hoursBetween (some s) (some e)
      = if e - s ≤ 0 then 0 else (jround (((e - s : ℤ) : ℚ) / 60 * 100) : ℚ) / 100 := rfl

/-- C5. For every valid `(depart, end)` pair with `end ≥ depart` on the same
date, the computed duration in hours equals the difference in minutes
divided by 60, up to the rounding granularity configured in `hoursBetween`
(centihours — the result moves by at most half a step, `1/200`). -/
theorem duration_matches_minutes :
    ∀ d t1 t2 : ℤ, t1 ≤ t2 →
      |hoursBetween (makeDayjsFromJob (some d) (some t1)) (makeDayjsFromJob (some d) (some t2))
        - ((t2 : ℚ) - (t1 : ℚ)) / 60| ≤ 1/200 := by
  intro d t1 t2 hle
  have hmk1 : makeDayjsFromJob (some d) (some t1) = some (1440 * d + t1) := rfl
  have hmk2 : makeDayjsFromJob (some d) (some t2) = some (1440 * d + t2) := rfl
  rw [hmk1, hmk2, hoursBetween_some_some]
  have hsub : 1440 * d + t2 - (1440 * d + t1) = t2 - t1 := by ring
  rw [hsub]
  by_cases h0 : t2 - t1 ≤ 0
  · have heq : t2 = t1 := by omega
    subst heq
    simp
  · rw [if_neg h0]
    have hb := jround_abs_sub_le (((t2 - t1 : ℤ) : ℚ) / 60 * 100)
    rw [abs_le] at hb ⊢
    push_cast at hb ⊢
    constructor <;> linarith

/-- Witness for C5: 07:00 to 16:00 on 2024-01-01 is 9 h, within tolerance
of 540 minutes / 60. -/
theorem duration_matches_minutes_witness :
    |hoursBetween (makeDayjsFromJob (some 19723) (some 420)) (makeDayjsFromJob (some 19723) (some 960))
      - (((960 : ℤ) : ℚ) - ((420 : ℤ) : ℚ)) / 60| ≤ 1/200 :=
  duration_matches_minutes 19723 420 960 (by norm_num)

/-- C10. For every pair of valid instants a positive whole number of
minutes apart, `hoursBetween` returns `Math.round((m / 60) * 100) / 100`:
a nonnegative value on the centihour grid. This intermediate centihour
rounding precedes the quarter-hour rounding applied downstream
(`roundToQuarterHour(hoursBetween(...))` in `Week.jsx`), and it genuinely
moves values: 10 minutes becomes 0.17 h, not 1/6 h. -/
theorem hoursBetween_centihour_rounding :
    (∀ s e : ℤ, s < e →
      hoursBetween (some s) (some e) = (jround (((e - s : ℤ) : ℚ) / 60 * 100) : ℚ) / 100
      ∧ ∃ k : ℤ, 0 ≤ k ∧ hoursBetween (some s) (some e) = (k : ℚ) / 100)
    ∧ hoursBetween (some 0) (some 10) = 17/100
    ∧ (17/100 : ℚ) ≠ 10/60
    ∧ roundToQuarterHour (hoursBetween (some 0) (some 10)) = 1/4 := by
  refine ⟨?_, ?_, by norm_num, ?_⟩
  case refine_2 =>
    rw [hoursBetween_some_some]
    norm_num [jround]
  case refine_3 =>
    rw [hoursBetween_some_some]
    norm_num [roundToQuarterHour, jround]
  intro s e h
  have hpos : ¬ (e - s ≤ 0) := by omega
  have heq : hoursBetween (some s) (some e)
      = (jround (((e - s : ℤ) : ℚ) / 60 * 100) : ℚ) / 100 := by
    rw [hoursBetween_some_some, if_neg hpos]
  refine ⟨heq, jround (((e - s : ℤ) : ℚ) / 60 * 100), ?_, heq⟩
  apply jround_nonneg
  have h1 : (0 : ℚ) < ((e - s : ℤ) : ℚ) := by exact_mod_cast (by omega : (0 : ℤ) < e - s)
  positivity

/-- Witness for C10 at the 10-minute pair `(0, 10)`. -/
theorem hoursBetween_centihour_rounding_witness :
    hoursBetween (some 0) (some 10) = (jround ((((10 : ℤ) - 0 : ℤ) : ℚ) / 60 * 100) : ℚ) / 100
    ∧ ∃ k : ℤ, 0 ≤ k ∧ hoursBetween (some 0) (some 10) = (k : ℚ) / 100 :=
  hoursBetween_centihour_rounding.1 0 10 (by norm_num)

/-- C6. Malformed or missing time pairs contribute exactly 0 hours
(`hoursBetween` is never negative, returns 0 on a missing endpoint and on
an inverted range), and a record whose date cannot be parsed is excluded
from the daily aggregation entirely; a record with a missing time leaves
the aggregated hours unchanged. (The embedding is a total function, so no
case raises.) -/
theorem malformed_times_contribute_zero :
    (∀ s e : Option ℤ, 0 ≤ hoursBetween s e)
    ∧ (∀ e : Option ℤ, hoursBetween none e = 0)
    ∧ (∀ s : Option ℤ, hoursBetween s none = 0)
    ∧ (∀ s e : ℤ, e ≤ s → hoursBetween (some s) (some e) = 0)
    ∧ (∀ (m : List (ℤ × DayTotal)) (j : Job), j.job_date = none → dailyStep m j = m)
    ∧ (∀ (m : List (ℤ × DayTotal)) (j : Job), j.depart = none ∨ j.fin = none →
        sumDailyHours (dailyStep m j) = sumDailyHours m) := by
  refine ⟨?_, ?_, ?_, ?_, ?_, ?_⟩
  · intro s e
    cases s with
    | none => simp [hoursBetween]
    | some s =>
      cases e with
      | none => simp [hoursBetween]
      | some e =>
        rw [hoursBetween_some_some]
        split
        · exact le_refl 0
        · rename_i hne
          have hx : (0 : ℚ) ≤ ((e - s : ℤ) : ℚ) / 60 * 100 := by
            have : (0 : ℚ) ≤ ((e - s : ℤ) : ℚ) := by
              exact_mod_cast (by omega : (0 : ℤ) ≤ e - s)
            positivity
          have := jround_nonneg hx
          positivity
  · intro e; cases e <;> rfl
  · intro s; cases s <;> rfl
  · intro s e h
    rw [hoursBetween_some_some, if_pos (by omega)]
  · intro m j h
    rw [dailyStep.eq_def]
    simp [parseJobDate, h]
  · intro m j hor
    cases hd : j.job_date with
    | none =>
      rw [dailyStep.eq_def]
      simp [parseJobDate, hd]
    | some d =>
      rw [dailyStep.eq_def]
      simp only [parseJobDate, hd]
      have hstep : sumDailyHours (if mapMem m d = true then m else m ++ [(d, ⟨d, 0, 0, 0, 0⟩)])
          = sumDailyHours m := by
        split
        · rfl
        · simp [sumDailyHours]
      rw [← hstep]
      apply sum_map_mapUpdate_const
      intro v
      rcases hor with h | h <;>
        rcases hdep : j.depart with _ | t1 <;>
        rcases hfin : j.fin with _ | t2 <;>
        simp_all [makeDayTime, parseJobDate] <;>
        cases j.ot <;> rfl

/-- Witness for C6: an inverted pair yields 0; a record with an
unparseable date is ignored; a record with no end time adds no hours. -/
theorem malformed_times_contribute_zero_witness :
    hoursBetween (some 5) (some 3) = 0
    ∧ dailyStep [] jobBadDate = []
    ∧ sumDailyHours (dailyStep [] jobNoEnd) = sumDailyHours [] :=
  ⟨malformed_times_contribute_zero.2.2.2.1 5 3 (by norm_num),
   malformed_times_contribute_zero.2.2.2.2.1 [] jobBadDate rfl,
   malformed_times_contribute_zero.2.2.2.2.2 [] jobNoEnd (Or.inr rfl)⟩

/-- C8 (amended). A record's distance contribution is counted even when its
time fields are missing or invalid, but only the `kmTotal` variant adds
`distanceOut + distanceReturn`: the current `Week.jsx` aggregation adds
`km_aller` alone (ignoring `km_retour`), and the daily-recap variant
likewise adds `km_aller` alone for records with a parseable date. -/
theorem km_counted_regardless_of_times :
    (∀ j : Job, kmTotal j = j.km_aller.getD 0 + j.km_retour.getD 0)
    ∧ (∀ (m : List (String × WeekAccW)) (j : Job),
        sumWeekKm (weekStepW m j) = sumWeekKm m + j.km_aller.getD 0)
    ∧ (∀ (m : List (String × WeekAccW)) (j : Job),
        sumWeekKm (weekStep1 m j) = sumWeekKm m + kmTotal j)
    ∧ (∀ (m : List (ℤ × DayTotal)) (j : Job),
        sumDailyKm (dailyStep m j)
          = sumDailyKm m + (if j.job_date = none then 0 else j.km_aller.getD 0)) := by
  have hw : ∀ (m : List (String × WeekAccW)) (key : String) (w0 : WeekAccW) (δ : ℚ)
      (f : WeekAccW → WeekAccW), (∀ v, (f v).totalKm = v.totalKm + δ) →
      w0.totalKm = 0 →
      sumWeekKm (mapUpdate f (if mapMem m key = true then m else m ++ [(key, w0)]) key)
        = sumWeekKm m + δ := by
    intro m key w0 δ f hf hw0
    simp only [sumWeekKm]
    by_cases hmem : mapMem m key = true
    · rw [if_pos hmem]
      exact sum_map_mapUpdate _ f δ hf m key hmem
    · rw [if_neg hmem]
      rw [sum_map_mapUpdate _ f δ hf _ key (mapMem_append_self m key w0)]
      simp [hw0]
  refine ⟨fun j => rfl, ?_, ?_, ?_⟩
  · intro m j
    exact hw m _ _ _ _ (fun v => rfl) rfl
  · intro m j
    exact hw m _ _ _ _ (fun v => rfl) rfl
  · have hd2 : ∀ (m : List (ℤ × DayTotal)) (key : ℤ) (w0 : DayTotal) (δ : ℚ)
        (f : DayTotal → DayTotal), (∀ v, (f v).km = v.km + δ) →
        w0.km = 0 →
        sumDailyKm (mapUpdate f (if mapMem m key = true then m else m ++ [(key, w0)]) key)
          = sumDailyKm m + δ := by
      intro m key w0 δ f hf hw0
      simp only [sumDailyKm]
      by_cases hmem : mapMem m key = true
      · rw [if_pos hmem]
        exact sum_map_mapUpdate _ f δ hf m key hmem
      · rw [if_neg hmem]
        rw [sum_map_mapUpdate _ f δ hf _ key (mapMem_append_self m key w0)]
        simp [hw0]
    intro m j
    cases hd : j.job_date with
    | none =>
      rw [dailyStep.eq_def]
      simp [parseJobDate, hd]
    | some d =>
      rw [dailyStep.eq_def]
      simp only [parseJobDate, hd, if_neg (Option.some_ne_none d)]
      exact hd2 m d _ _ _
        (fun v => by
          rcases makeDayTime (some d) j.depart with _ | d1 <;>
            rcases makeDayTime (some d) j.fin with _ | d2 <;>
            cases j.ot <;> rfl)
        rfl

/-- Counterexample to C8 as stated: a record with `km_aller` absent and
`km_retour = 5` contributes 0 km — not `distanceOut + distanceReturn = 5` —
to the week total of the current `Week.jsx` aggregation. -/
theorem km_retour_dropped_counterexample :
    (weeklyW [jobNoTimesKm5]).map (fun b => b.totalKm) = [0]
    ∧ kmTotal jobNoTimesKm5 = 5
    ∧ (0 : ℚ) ≠ 5 := by
  refine ⟨?_, by norm_num [kmTotal, jobNoTimesKm5], by norm_num⟩
  norm_num [weeklyW, jobNoTimesKm5, weekStepW, makeDayjsFromJob, hoursBetween,
    jround, roundToQuarterHour, mapMem, mapUpdate, mapGetD, mapSet, weekKeyW,
    isoWeekStart, splitWeekBucketsFromDailyTotals, sortBucketsW,
    List.insertionSort, List.orderedInsert, optIsAfter,
    DAILY_REGULAR_HOURS, WEEKLY_OT_FIRST_TIER_HOURS]

/-- C4 (code bug). The week key of `Week.jsx` is
`weekStart.format("YYYY-[W]WW")` but the `advancedFormat` plugin defining
the `WW` token is never loaded, so the key degenerates to
`"<calendar year of weekStart>-WWW"`: Monday 2024-01-01 and Monday
2024-01-08 start two different ISO weeks yet receive the same key
`"2024-WWW"`, and two records in those weeks land in a single bucket.
The daily-recap variant keys by the week-start date itself and correctly
produces two buckets on the same input. -/
theorem weekKey_collision_bug :
    daysFromCivil 2024 1 1 = 19723
    ∧ daysFromCivil 2024 1 8 = 19730
    ∧ isoWeekStart 19723 ≠ isoWeekStart 19730
    ∧ weekKeyW (some 19723) = weekKeyW (some 19730)
    ∧ (weeklyW [jobWeekA, jobWeekB]).length = 1
    ∧ (weekly2 [jobWeekA, jobWeekB]).length = 2 := by
  have k1 : weekKeyW (some 19723) = "2024-WWW" := by decide
  have k2 : weekKeyW (some 19730) = "2024-WWW" := by decide
  refine ⟨by decide, by decide, by decide, by rw [k1, k2], ?_, ?_⟩
  · norm_num [weeklyW, jobWeekA, jobWeekB, weekStepW, makeDayjsFromJob, hoursBetween,
      jround, roundToQuarterHour, mapMem, mapUpdate, mapGetD, mapSet, k1, k2,
      isoWeekStart, splitWeekBucketsFromDailyTotals, sortBucketsW,
      List.insertionSort, List.orderedInsert, optIsAfter,
      DAILY_REGULAR_HOURS, WEEKLY_OT_FIRST_TIER_HOURS]
  · norm_num [weekly2, jobWeekA, jobWeekB, dailyStep, parseJobDate, makeDayTime,
      hoursBetween, jround, clamp, mapMem, mapUpdate, mapGetD, weeklyStep2,
      isoWeekStart, List.insertionSort, List.orderedInsert,
      List.dedup_nil, List.dedup_cons_of_not_mem]

/-- Daily regular plus daily overtime re-sums to the rounded day totals. -/
theorem sum_rq_split (l : List ℚ) :
    (l.map (fun r => min DAILY_REGULAR_HOURS (roundToQuarterHour r))).sum
      + (l.map (fun r => max 0 (roundToQuarterHour r - DAILY_REGULAR_HOURS))).sum
    = (l.map roundToQuarterHour).sum := by
  induction l with
  | nil => simp
  | cons x xs ih =>
    simp only [List.map_cons, List.sum_cons]
    have := min_add_max_sub DAILY_REGULAR_HOURS (roundToQuarterHour x)
    linarith

/-- C3. For every list of job records, every week bucket produced by the
weekly aggregation satisfies
`totalHours = regularHours + overtime15Hours + overtime20Hours` — exactly,
in the rational model, for both the current `Week.jsx` aggregation and the
daily-recap variant. -/
theorem weekly_totalHours_invariant :
    (∀ jobs : List Job, ∀ b ∈ weeklyW jobs,
      b.totalHours = b.hours1x + b.hours15x + b.hours2x)
    ∧ (∀ jobs : List Job, ∀ b ∈ weekly2 jobs,
      b.totalHours = b.regularHours + b.ot15 + b.ot20) := by
  constructor
  · intro jobs b hb
    simp only [weeklyW, sortBucketsW] at hb
    have hb' := (List.perm_insertionSort _ _).mem_iff.1 hb
    obtain ⟨p, hp, rfl⟩ := List.mem_map.1 hb'
    dsimp only
    rw [foldl_add_sum, splitWeekBuckets_eq]
    dsimp only
    have h1 := sum_rq_split (p.2.dayHours.map (fun q => q.2))
    have h2 := min_add_max_sub WEEKLY_OT_FIRST_TIER_HOURS
      ((p.2.dayHours.map (fun q => q.2)).map
        (fun r => max 0 (roundToQuarterHour r - DAILY_REGULAR_HOURS))).sum
    linarith
  · intro jobs b hb
    simp only [weekly2] at hb
    have hb' := (List.perm_insertionSort _ _).mem_iff.1 hb
    obtain ⟨p, hp, rfl⟩ := List.mem_map.1 hb'
    dsimp only
    have := min_add_max_sub 1 p.2.overtimeHours
    rw [min_comm p.2.overtimeHours 1, max_comm (p.2.overtimeHours - 1) 0]
    linarith

/-- Witness for C3 on the concrete record `jobMonday9h`: the bucket of each
aggregation satisfies the invariant (9 = 8 + 1 + 0). -/
theorem weekly_totalHours_invariant_witness :
    bucketMonday9h.totalHours
      = bucketMonday9h.hours1x + bucketMonday9h.hours15x + bucketMonday9h.hours2x
    ∧ bucket2Monday9h.totalHours
      = bucket2Monday9h.regularHours + bucket2Monday9h.ot15 + bucket2Monday9h.ot20 := by
  constructor
  · apply weekly_totalHours_invariant.1 [jobMonday9h]
    have h : weeklyW [jobMonday9h] = [bucketMonday9h] := by
      norm_num [weeklyW, jobMonday9h, bucketMonday9h, weekStepW, makeDayjsFromJob,
        hoursBetween, jround, roundToQuarterHour, mapMem, mapUpdate, mapGetD, mapSet,
        weekKeyW, isoWeekStart, splitWeekBucketsFromDailyTotals, sortBucketsW,
        List.insertionSort, List.orderedInsert, optIsAfter,
        DAILY_REGULAR_HOURS, WEEKLY_OT_FIRST_TIER_HOURS]
    rw [h]
    exact List.mem_singleton_self _
  · apply weekly_totalHours_invariant.2 [jobMonday9h]
    have h : weekly2 [jobMonday9h] = [bucket2Monday9h] := by
      norm_num [weekly2, jobMonday9h, bucket2Monday9h, dailyStep, parseJobDate,
        makeDayTime, hoursBetween, jround, clamp, mapMem, mapUpdate, mapGetD,
        weeklyStep2, isoWeekStart, List.insertionSort, List.orderedInsert,
        List.dedup_nil, List.dedup_cons_of_not_mem]
    rw [h]
    exact List.mem_singleton_self _

/-- The weekly map of the daily-recap variant has pairwise-distinct keys,
and every accumulated bucket's `start` equals its key. -/
theorem weekly2Map_invariant (days : List DayTotal) :
    ((days.foldl weeklyStep2 []).map Prod.fst).Nodup
    ∧ ∀ p ∈ days.foldl weeklyStep2 [], p.2.start = p.1 := by
  apply foldl_invariant weeklyStep2
    (P := fun m => (m.map Prod.fst).Nodup ∧ ∀ p ∈ m, p.2.start = p.1)
  · exact ⟨List.nodup_nil, by simp⟩
  · rintro m day ⟨hnodup, hstart⟩
    simp only [weeklyStep2]
    have hm1keys :
        ((if mapMem m (isoWeekStart day.date) = true then m
          else m ++ [(isoWeekStart day.date,
            ⟨isoWeekStart day.date, isoWeekStart day.date + 6, 0, 0, 0, []⟩)]).map
          Prod.fst).Nodup := by
      split
      · exact hnodup
      · rename_i hmem
        rw [List.map_append, List.nodup_append]
        refine ⟨hnodup, by simp, ?_⟩
        intro a ha hb
        simp only [List.map_cons, List.map_nil, List.mem_singleton] at hb
        subst hb
        exact hmem ((mapMem_iff_mem_keys m _).2 ha)
    have hm1start :
        ∀ p ∈ (if mapMem m (isoWeekStart day.date) = true then m
          else m ++ [(isoWeekStart day.date,
            ⟨isoWeekStart day.date, isoWeekStart day.date + 6, 0, 0, 0, []⟩)]),
          p.2.start = p.1 := by
      split
      · exact hstart
      · intro p hp
        rcases List.mem_append.1 hp with h | h
        · exact hstart p h
        · rw [List.mem_singleton] at h
          subst h
          rfl
    constructor
    · rw [mapUpdate_keys]
      exact hm1keys
    · intro p hp
      rcases mem_mapUpdate _ _ _ p hp with h | ⟨q, hq, rfl⟩
      · exact hm1start p h
      · exact hm1start q hq

/-- The daily-recap variant aggregation returns week summaries strictly
descending by `weekStart` with pairwise-distinct keys (the start dates),
for every input record set. -/
theorem weekly2_sorted_helper :
    ∀ jobs : List Job,
      (weekly2 jobs).Pairwise (fun a b => b.start < a.start)
      ∧ ((weekly2 jobs).map (fun b => b.start)).Nodup := by
  intro jobs
  obtain ⟨hnodup, hstart⟩ :=
    weekly2Map_invariant (((jobs.foldl dailyStep []).map (fun p => p.2)))
  have harr : ((((jobs.foldl dailyStep []).map (fun p => p.2)).foldl weeklyStep2 []).map
      (fun p => (⟨p.2.start, p.2.weekEnd, p.2.regularHours, p.2.overtimeHours, p.2.totalKm,
        min p.2.overtimeHours 1, max (p.2.overtimeHours - 1) 0,
        p.2.regularHours + p.2.overtimeHours,
        List.insertionSort (fun a b : ℤ => b ≤ a) p.2.dayKeys.dedup⟩ : Bucket2))).Pairwise
      (fun a b => a.start ≠ b.start) := by
    have hkeys :
        (((jobs.foldl dailyStep []).map (fun p => p.2)).foldl weeklyStep2 []).Pairwise
          (fun p q => p.1 ≠ q.1) := by
      have := hnodup
      rw [List.Nodup, List.pairwise_map] at this
      exact this
    rw [List.pairwise_map]
    refine hkeys.imp_of_mem ?_
    intro p q hp hq hne
    dsimp only
    rw [hstart p hp, hstart q hq]
    exact hne
  have hperm := List.perm_insertionSort
    (fun a b : Bucket2 => b.start ≤ a.start)
    ((((jobs.foldl dailyStep []).map (fun p => p.2)).foldl weeklyStep2 []).map
      (fun p => (⟨p.2.start, p.2.weekEnd, p.2.regularHours, p.2.overtimeHours, p.2.totalKm,
        min p.2.overtimeHours 1, max (p.2.overtimeHours - 1) 0,
        p.2.regularHours + p.2.overtimeHours,
        List.insertionSort (fun a b : ℤ => b ≤ a) p.2.dayKeys.dedup⟩ : Bucket2)))
  have hsorted : List.Sorted (fun a b : Bucket2 => b.start ≤ a.start) (weekly2 jobs) := by
    simp only [weekly2]
    haveI : IsTotal Bucket2 (fun a b => b.start ≤ a.start) := ⟨fun a b => le_total _ _⟩
    haveI : IsTrans Bucket2 (fun a b => b.start ≤ a.start) :=
      ⟨fun a b c h1 h2 => le_trans h2 h1⟩
    exact List.sorted_insertionSort _ _
  have hne : (weekly2 jobs).Pairwise (fun a b => a.start ≠ b.start) := by
    have : weekly2 jobs =
        List.insertionSort (fun a b : Bucket2 => b.start ≤ a.start)
          ((((jobs.foldl dailyStep []).map (fun p => p.2)).foldl weeklyStep2 []).map
            (fun p => (⟨p.2.start, p.2.weekEnd, p.2.regularHours, p.2.overtimeHours,
              p.2.totalKm, min p.2.overtimeHours 1, max (p.2.overtimeHours - 1) 0,
              p.2.regularHours + p.2.overtimeHours,
              List.insertionSort (fun a b : ℤ => b ≤ a) p.2.dayKeys.dedup⟩ : Bucket2))) := rfl
    rw [this]
    exact hperm.pairwise_iff (fun h => h.symm) |>.2 harr
  constructor
  · exact (hsorted.and hne).imp (fun h => lt_of_le_of_ne h.1 (Ne.symm h.2))
  · rw [List.Nodup, List.pairwise_map]
    exact hne

/-- Floor of an integer divided by 60 is Euclidean division by 60. -/
theorem floor_intCast_div60 (T : ℤ) : ⌊(T : ℚ) / 60⌋ = T / 60 := by
  exact_mod_cast Rat.floor_intCast_div_natCast T 60

/-- Truncation agrees with the floor on nonnegative quotients. -/
theorem jtrunc_intCast_div60 (T : ℤ) (h : 0 ≤ T) : jtrunc ((T : ℚ) / 60) = T / 60 := by
  have h0 : (0 : ℚ) ≤ (T : ℚ) := by exact_mod_cast h
  rw [jtrunc, if_pos (div_nonneg h0 (by norm_num))]
  exact floor_intCast_div60 T

/-- The remainder computed by the formatter is the Euclidean remainder. -/
theorem sub_mul_ediv_eq_emod (T : ℤ) : (T : ℚ) - 60 * ((T / 60 : ℤ) : ℚ) = ((T % 60 : ℤ) : ℚ) := by
  have h : T % 60 = T - 60 * (T / 60) := by
    rw [Int.emod_def]
  rw [h]
  push_cast
  ring

/-- Rendering an integer-valued JavaScript number. -/
theorem jsNumToString_intCast (n : ℤ) : jsNumToString (.finite ((n : ℤ) : ℚ)) = toString n := by
  simp [jsNumToString, Rat.den_intCast, Rat.num_intCast]

/-- The minutes part of the formatter always renders as two characters. -/
theorem pad2_toString_length (T : ℤ) :
    (jsPadStart2 (toString (T % 60))).length = 2 := by
  have h1 : 0 ≤ T % 60 := Int.emod_nonneg T (by norm_num)
  have h2 : T % 60 < 60 := Int.emod_lt_of_pos T (by norm_num)
  obtain ⟨n, hn⟩ := Int.eq_ofNat_of_zero_le h1
  rw [hn]
  have hrepr : toString ((n : ℕ) : ℤ) = Nat.repr n := rfl
  rw [hrepr]
  have hn60 : n < 60 := by
    rw [hn] at h2
    exact_mod_cast h2
  exact (show ∀ k : ℕ, k < 60 → (jsPadStart2 (Nat.repr k)).length = 2 by decide) n hn60

/-- Closed form of `formatHoursHM` on a positive finite input: round the
total minutes once, then floor-divide and take the remainder. -/
theorem formatHoursHM_pos (q : ℚ) (hq : 0 < q) :
    formatHoursHM (.finite q)
      = toString (jround (q * 60) / 60) ++ "h"
        ++ jsPadStart2 (toString (jround (q * 60) % 60)) := by
  have hT : 0 ≤ jround (q * 60) := jround_nonneg (mul_pos hq (by norm_num)).le
  have hcond : ¬ (jsTruthy (.finite q) = false ∨ jsLeZero (.finite q) = true) := by
    simp [jsTruthy, jsLeZero, ne_of_gt hq, not_le.2 hq]
  rw [formatHoursHM, if_neg hcond]
  simp only [jsMul60, jsMathRound, jsDiv60, jsMathFloor, jsMod60]
  rw [floor_intCast_div60, jtrunc_intCast_div60 _ hT, sub_mul_ediv_eq_emod]
  rw [jsNumToString_intCast, jsNumToString_intCast]

/-- Unfolding of the guard-free variant formatter on a truthy number. -/
theorem formatHoursHM2_truthy (q : ℚ) (hq : q ≠ 0) :
    formatHoursHM2 (.finite q)
      = jsNumToString (jsMathFloor (jsDiv60 (jsMathRound (jsMul60 (.finite q))))) ++ "h"
        ++ jsPadStart2 (jsNumToString (jsMod60 (jsMathRound (jsMul60 (.finite q))))) := by
  have h : jsTruthy (.finite q) = true := by simp [jsTruthy, hq]
  simp [formatHoursHM2, h]

/-- Unfolding of the guard-free variant formatter on a falsy number
(`NaN`, `0`): the input is coerced to `0` first. -/
theorem formatHoursHM2_falsy (x : JNum) (hx : jsTruthy x = false) :
    formatHoursHM2 x
      = jsNumToString (jsMathFloor (jsDiv60 (jsMathRound (jsMul60 (.finite 0))))) ++ "h"
        ++ jsPadStart2 (jsNumToString (jsMod60 (jsMathRound (jsMul60 (.finite 0))))) := by
  simp [formatHoursHM2, hx]

/-- The guard-free variant formatter renders `-1` as `"-1h00"`. -/
theorem formatHoursHM2_neg_one : formatHoursHM2 (.finite (-1)) = "-1h00" := by
  rw [formatHoursHM2_truthy (-1) (by norm_num)]
  have m1 : jsMul60 (.finite (-1)) = .finite (((-60 : ℤ) : ℚ)) := by
    simp only [jsMul60, JNum.finite.injEq]
    norm_num
  have m2 : jsMathRound (.finite (((-60 : ℤ) : ℚ))) = .finite (((-60 : ℤ) : ℚ)) := by
    simp only [jsMathRound, JNum.finite.injEq, jround]
    norm_num
  have m3 : jsMathFloor (jsDiv60 (.finite (((-60 : ℤ) : ℚ)))) = .finite (((-1 : ℤ) : ℚ)) := by
    simp only [jsDiv60, jsMathFloor, JNum.finite.injEq]
    rw [floor_intCast_div60]
    norm_num
  have m4 : jsMod60 (.finite (((-60 : ℤ) : ℚ))) = .finite (((0 : ℤ) : ℚ)) := by
    simp only [jsMod60, JNum.finite.injEq]
    have ht : jtrunc (((-60 : ℤ) : ℚ) / 60) = -1 := by
      rw [jtrunc, if_neg (by norm_num)]
      norm_num
    rw [ht]
    norm_num
  rw [m1, m2, m3, m4, jsNumToString_intCast, jsNumToString_intCast]
  decide

/-- The guard-free variant formatter renders `NaN` as `"0h00"`. -/
theorem formatHoursHM2_nan : formatHoursHM2 .nan = "0h00" := by
  rw [formatHoursHM2_falsy .nan (by simp [jsTruthy])]
  have m1 : jsMul60 (.finite 0) = .finite (((0 : ℤ) : ℚ)) := by
    simp only [jsMul60, JNum.finite.injEq]
    norm_num
  have m2 : jsMathRound (.finite (((0 : ℤ) : ℚ))) = .finite (((0 : ℤ) : ℚ)) := by
    simp only [jsMathRound, JNum.finite.injEq, jround]
    norm_num
  have m3 : jsMathFloor (jsDiv60 (.finite (((0 : ℤ) : ℚ)))) = .finite (((0 : ℤ) : ℚ)) := by
    simp only [jsDiv60, jsMathFloor, JNum.finite.injEq]
    rw [floor_intCast_div60]
    norm_num
  have m4 : jsMod60 (.finite (((0 : ℤ) : ℚ))) = .finite (((0 : ℤ) : ℚ)) := by
    simp only [jsMod60, JNum.finite.injEq]
    have ht : jtrunc (((0 : ℤ) : ℚ) / 60) = 0 := by
      rw [jtrunc, if_pos (by norm_num)]
      norm_num
    rw [ht]
    norm_num
  rw [m1, m2, m3, m4, jsNumToString_intCast]
  decide

/-- C9 (amended). The `Week.jsx` hour formatter maps `NaN`, negative
infinity and every non-positive finite input to `"0h00"`, but positive
infinity renders as `"InfinityhNaN"`; on positive finite input it rounds
the total minutes to the nearest integer exactly once, then floor-divides
and takes the remainder, always zero-padding the minutes to two digits;
`format(0) = "0h00"`, `format(2.75) = "2h45"`, `format(-1) = "0h00"`,
`format(NaN) = "0h00"`. The guard-free variant formatter instead renders
`-1` as `"-1h00"` (and `NaN` as `"0h00"`). -/
theorem formatHoursHM_contract :
    (∀ q : ℚ, q ≤ 0 → formatHoursHM (.finite q) = "0h00")
    ∧ formatHoursHM .nan = "0h00"
    ∧ formatHoursHM .neginf = "0h00"
    ∧ formatHoursHM .posinf = "InfinityhNaN"
    ∧ (∀ q : ℚ, 0 < q →
        formatHoursHM (.finite q)
          = toString (jround (q * 60) / 60) ++ "h"
            ++ jsPadStart2 (toString (jround (q * 60) % 60))
        ∧ (jsPadStart2 (toString (jround (q * 60) % 60))).length = 2)
    ∧ formatHoursHM (.finite 0) = "0h00"
    ∧ formatHoursHM (.finite (11/4)) = "2h45"
    ∧ formatHoursHM (.finite (-1)) = "0h00"
    ∧ formatHoursHM2 (.finite (-1)) = "-1h00"
    ∧ formatHoursHM2 .nan = "0h00" := by
  have hnonpos : ∀ q : ℚ, q ≤ 0 → formatHoursHM (.finite q) = "0h00" := by
    intro q hq
    rcases eq_or_lt_of_le hq with h | h
    · have : jsTruthy (.finite q) = false := by simp [jsTruthy, h]
      simp [formatHoursHM, this]
    · have : jsLeZero (.finite q) = true := by simp [jsLeZero, hq]
      simp [formatHoursHM, this]
  refine ⟨hnonpos, by decide, by decide, by decide, ?_, hnonpos 0 le_rfl, ?_,
    hnonpos (-1) (by norm_num), formatHoursHM2_neg_one, formatHoursHM2_nan⟩
  · intro q hq
    exact ⟨formatHoursHM_pos q hq, pad2_toString_length _⟩
  · rw [formatHoursHM_pos (11/4) (by norm_num)]
    have hT : jround ((11/4 : ℚ) * 60) = 165 := by
      rw [jround]
      norm_num
    rw [hT]
    decide

/-- Counterexample to C9 as stated: positive infinity is a non-finite
input, yet the formatter renders it as `"InfinityhNaN"`, not `"0h00"`. -/
theorem formatHoursHM_infinity_counterexample :
    formatHoursHM JNum.posinf = "InfinityhNaN" ∧ "InfinityhNaN" ≠ "0h00" :=
  ⟨by decide, by decide⟩

/-- Witness for C9 at `-3` (guard branch) and `2.75` (two-digit minutes). -/
theorem formatHoursHM_contract_witness :
    formatHoursHM (.finite (-3)) = "0h00"
    ∧ (jsPadStart2 (toString (jround ((11/4 : ℚ) * 60) % 60))).length = 2 :=
  ⟨formatHoursHM_contract.1 (-3) (by norm_num),
   (formatHoursHM_contract.2.2.2.2.1 (11/4) (by norm_num)).2⟩

/-- Ordered insertion only inspects the comparator on the inserted element
against members of the list, so pointwise-agreeing comparators insert
identically. -/
theorem orderedInsert_congr {α : Type} (r s : α → α → Prop)
    [DecidableRel r] [DecidableRel s] (a : α) (l : List α)
    (h : ∀ b ∈ l, (r a b ↔ s a b)) :
    List.orderedInsert r a l = List.orderedInsert s a l := by
  induction l with
  | nil => rfl
  | cons y ys ih =>
    rw [List.orderedInsert, List.orderedInsert]
    by_cases hr : r a y
    · rw [if_pos hr, if_pos ((h y (List.mem_cons_self y ys)).1 hr)]
    · rw [if_neg hr, if_neg (fun hs => hr ((h y (List.mem_cons_self y ys)).2 hs)),
        ih (fun b hb => h b (List.mem_cons_of_mem _ hb))]

/-- Insertion sort only inspects the comparator on pairs of list members,
so pointwise-agreeing comparators sort identically. -/
theorem insertionSort_congr {α : Type} (r s : α → α → Prop)
    [DecidableRel r] [DecidableRel s] (l : List α)
    (h : ∀ a ∈ l, ∀ b ∈ l, (r a b ↔ s a b)) :
    List.insertionSort r l = List.insertionSort s l := by
  induction l with
  | nil => rfl
  | cons x xs ih =>
    rw [List.insertionSort, List.insertionSort,
      ih (fun a ha b hb => h a (List.mem_cons_of_mem _ ha) b (List.mem_cons_of_mem _ hb))]
    apply orderedInsert_congr
    intro b hb
    have hb' : b ∈ xs := (List.perm_insertionSort s xs).mem_iff.1 hb
    exact h x (List.mem_cons_self x xs) b (List.mem_cons_of_mem _ hb')

/-- When every record's date parses, the `Week.jsx` week map has
pairwise-distinct keys, and every bucket's `start` is a valid instant
whose year determines the bucket's key. -/
theorem weeklyWMap_invariant (jobs : List Job) (hjobs : ∀ j ∈ jobs, j.job_date ≠ none) :
    ((jobs.foldl weekStepW []).map Prod.fst).Nodup
    ∧ ∀ p ∈ jobs.foldl weekStepW [], ∃ s : ℤ,
        p.2.start = some s ∧ p.1 = toString (yearOfDay s) ++ "-WWW" := by
  suffices h : ∀ (js : List Job) (m : List (String × WeekAccW)),
      (∀ j ∈ js, j.job_date ≠ none) →
      ((m.map Prod.fst).Nodup ∧ ∀ p ∈ m, ∃ s : ℤ,
        p.2.start = some s ∧ p.1 = toString (yearOfDay s) ++ "-WWW") →
      (((js.foldl weekStepW m).map Prod.fst).Nodup
        ∧ ∀ p ∈ js.foldl weekStepW m, ∃ s : ℤ,
          p.2.start = some s ∧ p.1 = toString (yearOfDay s) ++ "-WWW") by
    exact h jobs [] hjobs ⟨List.nodup_nil, by simp⟩
  intro js
  induction js with
  | nil => intro m _ hm; exact hm
  | cons j js ih =>
    intro m hjs hm
    apply ih _ (fun x hx => hjs x (List.mem_cons_of_mem _ hx))
    obtain ⟨hnodup, hstart⟩ := hm
    cases hz : j.job_date with
    | none => exact absurd hz (hjs j (List.mem_cons_self _ _))
    | some z =>
      simp only [weekStepW, hz]
      have hm1keys :
          ((if mapMem m (weekKeyW (some z)) = true then m
            else m ++ [(weekKeyW (some z),
              ⟨(some z).map isoWeekStart, ((some z).map isoWeekStart).map (· + 6), 0, []⟩)]).map
            Prod.fst).Nodup := by
        split
        · exact hnodup
        · rename_i hmem
          rw [List.map_append, List.nodup_append]
          refine ⟨hnodup, by simp, ?_⟩
          intro a ha hb
          simp only [List.map_cons, List.map_nil, List.mem_singleton] at hb
          subst hb
          exact hmem ((mapMem_iff_mem_keys m _).2 ha)
      have hm1start :
          ∀ p ∈ (if mapMem m (weekKeyW (some z)) = true then m
            else m ++ [(weekKeyW (some z),
              ⟨(some z).map isoWeekStart, ((some z).map isoWeekStart).map (· + 6), 0, []⟩)]),
            ∃ s : ℤ, p.2.start = some s ∧ p.1 = toString (yearOfDay s) ++ "-WWW" := by
        split
        · exact hstart
        · intro p hp
          rcases List.mem_append.1 hp with h | h
          · exact hstart p h
          · rw [List.mem_singleton] at h
            subst h
            exact ⟨isoWeekStart z, rfl, rfl⟩
      constructor
      · rw [mapUpdate_keys]
        exact hm1keys
      · intro p hp
        rcases mem_mapUpdate _ _ _ p hp with h | ⟨q, hq, rfl⟩
        · exact hm1start p h
        · obtain ⟨s, hs, hk⟩ := hm1start q hq
          exact ⟨s, hs, hk⟩

/-- The `Week.jsx` sort, on buckets whose starts are all valid and pairwise
distinct, produces the strictly descending order (by the source's own
`isAfter` comparison) with pairwise-distinct starts. -/
theorem sortBucketsW_pairwise (l : List BucketW)
    (hv : ∀ b ∈ l, b.start ≠ none)
    (hne : l.Pairwise (fun a b => a.start ≠ b.start)) :
    (sortBucketsW l).Pairwise (fun a b => optIsAfter a.start b.start = true)
    ∧ ((sortBucketsW l).map (fun b => b.start)).Nodup := by
  have hcongr : sortBucketsW l
      = List.insertionSort (fun a b : BucketW => b.start.getD 0 ≤ a.start.getD 0) l := by
    rw [sortBucketsW]
    apply insertionSort_congr
    intro a ha b hb
    cases hav : a.start with
    | none => exact absurd hav (hv a ha)
    | some av =>
      cases hbv : b.start with
      | none => exact absurd hbv (hv b hb)
      | some bv =>
        simp [optIsAfter, not_lt]
  haveI : IsTotal BucketW (fun a b => b.start.getD 0 ≤ a.start.getD 0) :=
    ⟨fun a b => le_total _ _⟩
  haveI : IsTrans BucketW (fun a b => b.start.getD 0 ≤ a.start.getD 0) :=
    ⟨fun a b c h1 h2 => le_trans h2 h1⟩
  have hsorted : (sortBucketsW l).Pairwise (fun a b => b.start.getD 0 ≤ a.start.getD 0) := by
    rw [hcongr]
    exact List.sorted_insertionSort _ _
  have hperm : List.Perm (sortBucketsW l) l := by
    rw [hcongr]
    exact List.perm_insertionSort _ l
  have hne' : (sortBucketsW l).Pairwise (fun a b => a.start ≠ b.start) :=
    (hperm.pairwise_iff (fun h => h.symm)).2 hne
  have hv' : ∀ b ∈ sortBucketsW l, b.start ≠ none := fun b hb => hv b (hperm.mem_iff.1 hb)
  constructor
  · refine (hsorted.and hne').imp_of_mem ?_
    intro a b ha hb hab
    cases hav : a.start with
    | none => exact absurd hav (hv' a ha)
    | some av =>
      cases hbv : b.start with
      | none => exact absurd hbv (hv' b hb)
      | some bv =>
        obtain ⟨hle, hneq⟩ := hab
        rw [hav, hbv] at hle hneq
        simp only [Option.getD_some] at hle
        simp only [ne_eq, Option.some.injEq] at hneq
        simp only [optIsAfter, decide_eq_true_eq]
        exact lt_of_le_of_ne hle (fun h => hneq (h.symm))
  · rw [List.Nodup, List.pairwise_map]
    exact hne'

/-- C7 (amended). For every input record set, the daily-recap variant
aggregation returns week summaries strictly descending by `weekStart` with
no duplicate week keys; the `Week.jsx` aggregation satisfies the same —
strict descent under its own `isAfter` comparison, pairwise-distinct
starts — whenever every record's date parses. (With an unparseable date it
does not: see the counterexample.) -/
theorem weekly_sorted_descending_amended :
    (∀ jobs : List Job,
      (weekly2 jobs).Pairwise (fun a b => b.start < a.start)
      ∧ ((weekly2 jobs).map (fun b => b.start)).Nodup)
    ∧ (∀ jobs : List Job, (∀ j ∈ jobs, j.job_date ≠ none) →
      (weeklyW jobs).Pairwise (fun a b => optIsAfter a.start b.start = true)
      ∧ ((weeklyW jobs).map (fun b => b.start)).Nodup) := by
  refine ⟨weekly2_sorted_helper, ?_⟩
  intro jobs hjobs
  obtain ⟨hnodup, hstart⟩ := weeklyWMap_invariant jobs hjobs
  simp only [weeklyW]
  apply sortBucketsW_pairwise
  · intro b hb
    obtain ⟨p, hp, rfl⟩ := List.mem_map.1 hb
    obtain ⟨s, hs, _⟩ := hstart p hp
    dsimp only
    rw [hs]
    simp
  · rw [List.pairwise_map]
    have hkeys : (jobs.foldl weekStepW []).Pairwise (fun p q => p.1 ≠ q.1) := by
      have h := hnodup
      rw [List.Nodup, List.pairwise_map] at h
      exact h
    refine hkeys.imp_of_mem ?_
    intro p q hp hq hne1
    obtain ⟨sp, hsp, hkp⟩ := hstart p hp
    obtain ⟨sq, hsq, hkq⟩ := hstart q hq
    dsimp only
    rw [hsp, hsq]
    intro heq
    rw [Option.some.injEq] at heq
    exact hne1 (by rw [hkp, hkq, heq])

/-- Counterexample to C7 as stated: in the `Week.jsx` aggregation, a record
whose date does not parse creates an `"Invalid Date"` bucket with no valid
`weekStart`; the dayjs `isAfter` comparison is `false` against it both
ways, the comparator becomes inconsistent, and the output below places the
2024-01-01 week bucket before the newer 2025-01-06 week bucket — the
sequence is not strictly descending by `weekStart`. -/
theorem weekly_order_counterexample :
    (weeklyW [jobWeekA, jobBadDate, jobWeek2025]).map (fun b => b.start)
      = [some 19723, none, some 20094]
    ∧ (19723 : ℤ) < 20094
    ∧ optIsAfter (some 19723) (some 20094) = false
    ∧ ¬ ([some (19723 : ℤ), none, some 20094].Pairwise
          (fun a b => optIsAfter a b = true)) := by
  have k1 : weekKeyW (some 19723) = "2024-WWW" := by decide
  have k2 : weekKeyW (some 20094) = "2025-WWW" := by decide
  refine ⟨?_, by decide, by decide, by decide⟩
  norm_num [weeklyW, jobWeekA, jobBadDate, jobWeek2025, weekStepW, makeDayjsFromJob,
    hoursBetween, jround, roundToQuarterHour, mapMem, mapUpdate, mapGetD, mapSet,
    k1, k2, weekKeyW, isoWeekStart, splitWeekBucketsFromDailyTotals, sortBucketsW,
    List.insertionSort, List.orderedInsert, optIsAfter,
    DAILY_REGULAR_HOURS, WEEKLY_OT_FIRST_TIER_HOURS]

/-- Witness for C7 (amended) on two records with parseable dates in
2024-W01 and 2025-W02: the `Week.jsx` output is strictly descending with
distinct starts. -/
theorem weekly_sorted_descending_amended_witness :
    (weeklyW [jobWeekA, jobWeek2025]).Pairwise (fun a b => optIsAfter a.start b.start = true)
    ∧ ((weeklyW [jobWeekA, jobWeek2025]).map (fun b => b.start)).Nodup :=
  weekly_sorted_descending_amended.2 [jobWeekA, jobWeek2025] (by
    intro j hj
    simp only [List.mem_cons, List.not_mem_nil, or_false] at hj
    rcases hj with rfl | rfl <;> simp [jobWeekA, jobWeek2025])
